import Mathlib

/-!
Verification development for the docs-agents-md core: marker-based index
injection/removal (`inject.ts`), documentation-root detection
(`docs-detector.ts`), the doc-tree builder (`tree.ts`) and the index
encoder (`index-generator.ts`).

Host-document text is modelled as `List Char`; JavaScript string
primitives (`indexOf`, `includes`, `slice`, `replace`) are embedded as
executable functions on character lists.
-/

set_option maxRecDepth 16000

namespace DocsAgentsMd

/-- First index at which `pat` occurs in `s` (JavaScript `String.indexOf`,
with `none` standing for `-1`). -/
def firstOcc (pat : List Char) (s : List Char) : Option Nat :=
  if pat.isPrefixOf s then some 0
  else
    match s with
    | [] => none
    | _ :: t => (firstOcc pat t).map (fun n => n + 1)

/-- Number of positions of `s` at which `pat` occurs. -/
def occCount (pat : List Char) : List Char → Nat
  | [] => if pat.isPrefixOf [] then 1 else 0
  | x :: t => (if pat.isPrefixOf (x :: t) then 1 else 0) + occCount pat t

/-- JavaScript `String.replace` with a plain-string pattern: replace the
first occurrence only; return `s` unchanged when there is none. -/
def replaceFirst (pat repl s : List Char) : List Char :=
  match firstOcc pat s with
  | none => s
  | some i => s.take i ++ repl ++ s.drop (i + pat.length)

theorem isPrefixOf_eq_true_iff (l₁ l₂ : List Char) :
    l₁.isPrefixOf l₂ = true ↔ l₁ <+: l₂ := by
  exact List.isPrefixOf_iff_prefix

theorem firstOcc_prefix_drop (pat s : List Char) (i : Nat)
    (h : firstOcc pat s = some i) : pat <+: s.drop i := by
  induction s generalizing i with
  | nil =>
    rw [firstOcc] at h
    split at h
    · cases h
      simpa [isPrefixOf_eq_true_iff] using ‹pat.isPrefixOf [] = true›
    · cases h
  | cons a t ih =>
    rw [firstOcc] at h
    split at h
    · cases h
      simpa [isPrefixOf_eq_true_iff] using ‹pat.isPrefixOf (a :: t) = true›
    · cases hft : firstOcc pat t with
      | none => rw [hft] at h; cases h
      | some j =>
        rw [hft] at h
        simp only [Option.map_some'] at h
        cases h
        simpa using ih j hft

theorem firstOcc_min (pat s : List Char) (i : Nat)
    (h : firstOcc pat s = some i) :
    ∀ j, j < i → ¬ pat <+: s.drop j := by
  induction s generalizing i with
  | nil =>
    rw [firstOcc] at h
    split at h
    · cases h; omega
    · cases h
  | cons a t ih =>
    rw [firstOcc] at h
    split at h
    · cases h; omega
    · cases hft : firstOcc pat t with
      | none => rw [hft] at h; cases h
      | some k =>
        rw [hft] at h
        simp only [Option.map_some'] at h
        cases h
        intro j hj hp
        match j with
        | 0 =>
          simp only [List.drop_zero] at hp
          exact ‹¬ pat.isPrefixOf (a :: t) = true› (by
            simpa [isPrefixOf_eq_true_iff] using hp)
        | j + 1 =>
          exact ih k hft j (by omega) (by simpa using hp)

theorem firstOcc_le_length (pat s : List Char) (i : Nat)
    (h : firstOcc pat s = some i) : i ≤ s.length := by
  induction s generalizing i with
  | nil =>
    rw [firstOcc] at h
    split at h
    · cases h; simp
    · cases h
  | cons a t ih =>
    rw [firstOcc] at h
    split at h
    · cases h; simp
    · cases hft : firstOcc pat t with
      | none => rw [hft] at h; cases h
      | some j =>
        rw [hft] at h
        simp only [Option.map_some'] at h
        cases h
        have := ih j hft
        simp
        omega

theorem firstOcc_add_length_le (pat s : List Char) (i : Nat)
    (h : firstOcc pat s = some i) : i + pat.length ≤ s.length := by
  have hp := firstOcc_prefix_drop pat s i h
  have h1 : pat.length ≤ (s.drop i).length := hp.length_le
  have h2 : i ≤ s.length := firstOcc_le_length pat s i h
  simp [List.length_drop] at h1
  omega

theorem infix_iff_exists_prefix_drop (pat s : List Char) :
    pat <:+: s ↔ ∃ i, pat <+: s.drop i := by
  constructor
  · rintro ⟨a, b, rfl⟩
    exact ⟨a.length, by simp [List.drop_append_of_le_length, List.prefix_append]⟩
  · rintro ⟨i, t, ht⟩
    exact ⟨s.take i, t, by rw [List.append_assoc, ht, List.take_append_drop]⟩

theorem firstOcc_none_iff (pat s : List Char) :
    firstOcc pat s = none ↔ ¬ pat <:+: s := by
  induction s with
  | nil =>
    rw [firstOcc]
    constructor
    · intro h
      split at h
      · cases h
      · intro hc
        have hnil : pat = [] := List.eq_nil_of_infix_nil hc
        subst hnil
        exact ‹¬ List.isPrefixOf [] ([] : List Char) = true› (by simp [List.isPrefixOf])
    · intro h
      split
      · exact absurd ((isPrefixOf_eq_true_iff _ _).mp ‹_›).isInfix h
      · rfl
  | cons a t ih =>
    rw [firstOcc]
    constructor
    · intro h
      split at h
      · cases h
      · intro hc
        rcases (List.infix_cons_iff).mp hc with hpre | hinf
        · exact ‹¬ pat.isPrefixOf (a :: t) = true›
            (by simpa [isPrefixOf_eq_true_iff] using hpre)
        · cases hft : firstOcc pat t with
          | none => exact (ih.mp hft) hinf
          | some k => rw [hft] at h; cases h
    · intro h
      split
      · exact absurd ((isPrefixOf_eq_true_iff _ _).mp ‹_›).isInfix h
      · cases hft : firstOcc pat t with
        | none => rfl
        | some k =>
          have hint : pat <:+: t := (firstOcc_prefix_drop pat t k hft).isInfix.trans
            (List.drop_suffix k t).isInfix
          exact absurd (List.infix_cons hint) h

theorem firstOcc_isSome_iff (pat s : List Char) :
    (firstOcc pat s).isSome = true ↔ pat <:+: s := by
  rcases h : firstOcc pat s with _ | i
  · simpa using (firstOcc_none_iff pat s).mp h
  · simp only [Option.isSome_some, true_iff]
    exact (firstOcc_prefix_drop pat s i h).isInfix.trans (List.drop_suffix i s).isInfix

theorem length_replaceFirst_nil (pat s : List Char) (i : Nat)
    (h : firstOcc pat s = some i) :
    (replaceFirst pat [] s).length = s.length - pat.length := by
  have hle := firstOcc_add_length_le pat s i h
  rw [replaceFirst, h]
  simp [List.length_take, List.length_drop]
  omega

theorem length_replaceFirst_le (pat repl s : List Char)
    (hr : repl = []) : (replaceFirst pat repl s).length ≤ s.length := by
  subst hr
  rw [replaceFirst]
  rcases h : firstOcc pat s with _ | i
  · exact le_refl _
  · have hle := firstOcc_add_length_le pat s i h
    simp [List.length_take, List.length_drop]
    omega

/-- From `inject.ts`: the literal start marker `<!-- DOCS-AGENTS-MD:${name}-START -->`. -/
def startMarker (name : List Char) : List Char :=
  ("<!-- DOCS-AGENTS-MD:").toList ++ name ++ ("-START -->").toList

/-- From `inject.ts`: the literal end marker `<!-- DOCS-AGENTS-MD:${name}-END -->`. -/
def endMarker (name : List Char) : List Char :=
  ("<!-- DOCS-AGENTS-MD:").toList ++ name ++ ("-END -->").toList

/-- JavaScript `String.includes`: `pat` occurs somewhere in `s`. -/
def containsSub (s pat : List Char) : Bool :=
  (firstOcc pat s).isSome

theorem containsSub_iff (s pat : List Char) :
    containsSub s pat = true ↔ pat <:+: s := by
  rw [containsSub]
  exact firstOcc_isSome_iff pat s

/-- From `inject.ts`, `hasExistingIndex`: `content.includes(startMarker(name))`. -/
def hasExistingIndex (content name : List Char) : Bool :=
  containsSub content (startMarker name)

theorem hasExistingIndex_iff (content name : List Char) :
    hasExistingIndex content name = true ↔ startMarker name <:+: content := by
  rw [hasExistingIndex]
  exact containsSub_iff content (startMarker name)

theorem startMarker_length_pos (name : List Char) : 0 < (startMarker name).length := by
  simp [startMarker]

theorem endMarker_length_pos (name : List Char) : 0 < (endMarker name).length := by
  simp [endMarker]

theorem length_strip_lt (pat s : List Char) (hp : 0 < pat.length)
    (hin : pat <:+: s) : (replaceFirst pat [] s).length < s.length := by
  have hs : (firstOcc pat s).isSome = true := (firstOcc_isSome_iff pat s).mpr hin
  rcases h : firstOcc pat s with _ | i
  · rw [h] at hs; cases hs
  · have := firstOcc_add_length_le pat s i h
    rw [length_replaceFirst_nil pat s i h]
    omega

/-- From `inject.ts`, `injectIndex`: replace the content of an existing block, or
append a fresh block with proper spacing, stripping corrupted marker state
(missing end marker, or end marker before start marker) by literal text
removal and recursing. -/
def injectIndex (existingContent indexContent name : List Char) : List Char :=
  if h : hasExistingIndex existingContent name = true then
    match he : firstOcc (endMarker name) existingContent with
    | none =>
      -- Guard against missing END marker (START exists, END doesn't)
      injectIndex (replaceFirst (startMarker name) [] existingContent)
        indexContent name
    | some e =>
      if e + (endMarker name).length ≤
          (firstOcc (startMarker name) existingContent).getD 0 then
        -- Guard against corrupted marker order (END before START)
        injectIndex (replaceFirst (endMarker name) []
            (replaceFirst (startMarker name) [] existingContent))
          indexContent name
      else
        existingContent.take ((firstOcc (startMarker name) existingContent).getD 0)
          ++ (startMarker name ++ indexContent ++ endMarker name)
          ++ existingContent.drop (e + (endMarker name).length)
  else if existingContent = [] then
    (startMarker name ++ indexContent ++ endMarker name) ++ [('\n')]
  else
    existingContent
      ++ (if existingContent.getLast? = some '\n' then [('\n')] else [('\n'), ('\n')])
      ++ (startMarker name ++ indexContent ++ endMarker name) ++ [('\n')]
termination_by existingContent.length
decreasing_by
  · exact length_strip_lt _ _ (startMarker_length_pos name)
      ((hasExistingIndex_iff _ _).mp h)
  · calc (replaceFirst (endMarker name) []
        (replaceFirst (startMarker name) [] existingContent)).length
        ≤ (replaceFirst (startMarker name) [] existingContent).length :=
          length_replaceFirst_le _ _ _ rfl
      _ < existingContent.length :=
          length_strip_lt _ _ (startMarker_length_pos name)
            ((hasExistingIndex_iff _ _).mp h)

/-- From `inject.ts`, `removeIndex`: delete a well-formed block together with one
preceding blank line and at most one trailing newline; strip bare marker
tokens in corrupted states; return the content unchanged when no block
exists. -/
def removeIndex (content name : List Char) : List Char :=
  if hasExistingIndex content name = true then
    match firstOcc (endMarker name) content with
    | none =>
      -- Guard against missing END marker
      replaceFirst (startMarker name) [] content
    | some e =>
      if e + (endMarker name).length ≤
          (firstOcc (startMarker name) content).getD 0 then
        -- Guard against corrupted marker order (END before START)
        replaceFirst (endMarker name) [] (replaceFirst (startMarker name) [] content)
      else
        -- Also remove surrounding blank lines
        (content.take
          (if 2 ≤ (firstOcc (startMarker name) content).getD 0 ∧
              content[(firstOcc (startMarker name) content).getD 0 - 1]? = some '\n' ∧
              content[(firstOcc (startMarker name) content).getD 0 - 2]? = some '\n'
            then (firstOcc (startMarker name) content).getD 0 - 2
            else (firstOcc (startMarker name) content).getD 0))
          ++ (content.drop
            (if e + (endMarker name).length < content.length ∧
                content[e + (endMarker name).length]? = some '\n'
              then e + (endMarker name).length + 1
              else e + (endMarker name).length))
  else content

/-- JavaScript `String.replace` with a global single-character regexp
(`/x/g`): replace every occurrence of the character `c` by `repl`. -/
def replaceAllChar (c : Char) (repl : List Char) : List Char → List Char
  | [] => []
  | x :: t => (if x = c then repl else [x]) ++ replaceAllChar c repl t

/-- JavaScript `String.split('/')` (empty segments preserved). -/
def splitOnChar (c : Char) : List Char → List (List Char)
  | [] => [[]]
  | x :: t =>
    if x = c then [] :: splitOnChar c t
    else
      match splitOnChar c t with
      | g :: gs => (x :: g) :: gs
      | [] => [[x]]

/-- Model of `path.split('/')` on strings. -/
def splitPath (p : String) : List String :=
  (splitOnChar ('/') p.toList).map String.mk

/-- JavaScript `String.toLowerCase` (ASCII range). -/
def toLowerStr (s : String) : String :=
  String.mk (s.toList.map Char.toLower)

/-- Code-point order on characters, as a boolean. -/
def charLtb (a b : Char) : Bool :=
  decide (a.toNat < b.toNat)

/-- Lexicographic code-point order on character lists. -/
def charListLtb : List Char → List Char → Bool
  | [], [] => false
  | [], _ :: _ => true
  | _ :: _, [] => false
  | x :: xs, y :: ys => if x = y then charListLtb xs ys else charLtb x y

/-- Lexicographic code-point order on strings (model of the default
`String.localeCompare` returning a negative value). -/
def strLtb (a b : String) : Bool :=
  charListLtb a.toList b.toList

/-- From `tree.ts`: `DocFile`. -/
structure DocFile where
  relativePath : String
deriving DecidableEq, Repr

/-- From `tree.ts`: `DocSection`. -/
structure DocSection where
  name : String
  files : List DocFile
  subsections : List DocSection
deriving Repr

/-- Stable insertion of `x` after every element not strictly greater
(TypeScript's stable `Array.prototype.sort`, with `lt a b` standing for
`comparator(a, b) < 0`). -/
def insertSorted (lt : α → α → Bool) (x : α) : List α → List α
  | [] => [x]
  | y :: t => if lt x y then x :: y :: t else y :: insertSorted lt x t

/-- Stable sort: insert the elements left to right. -/
def stableSort (lt : α → α → Bool) (l : List α) : List α :=
  l.foldl (fun acc x => insertSorted lt x acc) []

/-- Comparator for files: `localeCompare` on `relativePath`, modelled as
code-point order. -/
def fileLt (a b : DocFile) : Bool :=
  strLtb a.relativePath b.relativePath

/-- Comparator for sections: the root section `.` sorts first, the rest by
name (`localeCompare`, modelled as code-point order). -/
def sectionLt (a b : DocSection) : Bool :=
  if a.name = ("." : String) then true
  else if b.name = ("." : String) then false
  else strLtb a.name b.name

/-- Insert-or-update on an insertion-ordered association list (JavaScript
`Map.set` preserves the position of an existing key). -/
def upsertGroup (topDir : String)
    (add : List DocFile × List DocFile → List DocFile × List DocFile) :
    List (String × List DocFile × List DocFile) →
      List (String × List DocFile × List DocFile)
  | [] => [(topDir, add ([], []))]
  | (k, e) :: t =>
    if k = topDir then (k, add e) :: t else (k, e) :: upsertGroup topDir add t

/-- One step of `buildDocTree`'s grouping loop: route a non-root file into
its top directory's entry, either as a direct file (exactly two path
segments) or as a child with the top directory stripped. -/
def groupStep (m : List (String × List DocFile × List DocFile)) (f : DocFile) :
    List (String × List DocFile × List DocFile) :=
  let parts := splitPath f.relativePath
  if parts.length < 2 then m
  else
    upsertGroup (parts.headD "")
      (fun e =>
        if parts.length = 2 then (e.1 ++ [f], e.2)
        else (e.1, e.2 ++ [⟨String.intercalate ("/") (parts.drop 1)⟩]))
      m

mutual

/-- From `tree.ts`: `restoreFullPaths` on one section: prepend `parentDir` to
every file, recursing into the subsections with `parentDir/section.name`. -/
def restoreSection : DocSection → String → DocSection
  | ⟨n, files, subsections⟩, parentDir =>
    { name := n
      files := files.map (fun f => ⟨parentDir ++ ("/") ++ f.relativePath⟩)
      subsections := restoreFullPaths subsections (parentDir ++ ("/") ++ n) }

/-- From `tree.ts`: `restoreFullPaths`: prepend `parentDir` to every file of every
section, recursing into subsections with `parentDir/section.name`. -/
def restoreFullPaths : List DocSection → String → List DocSection
  | [], _ => []
  | s :: rest, parentDir => restoreSection s parentDir :: restoreFullPaths rest parentDir

end

/-- From `tree.ts`: `buildDocTree`, with explicit recursion fuel (each recursive
call strips one path segment from every child, so any fuel at least the
total number of path segments is enough). -/
def buildDocTreeAux : Nat → List DocFile → List DocSection
  | 0, _ => []
  | fuel + 1, files =>
    let rootFiles := files.filter (fun f => (splitPath f.relativePath).length < 2)
    let root := files.foldl groupStep []
    let sections :=
      (if rootFiles.isEmpty then []
       else [{ name := ("." : String), files := stableSort fileLt rootFiles,
               subsections := ([] : List DocSection) }])
      ++ root.map (fun e =>
        { name := e.1
          files := e.2.1
          subsections := restoreFullPaths (buildDocTreeAux fuel e.2.2) e.1 })
    (stableSort sectionLt sections).map (fun s =>
      { s with files := stableSort fileLt s.files })

/-- From `tree.ts`: `buildDocTree`. -/
def buildDocTree (files : List DocFile) : List DocSection :=
  buildDocTreeAux (files.foldl (fun n f => n + (splitPath f.relativePath).length) 1)
    files

mutual

/-- From `index-generator.ts`: `collectAllFiles` on one section. -/
def collectSectionFiles : DocSection → List String
  | ⟨_, files, subsections⟩ =>
    files.map (fun f => f.relativePath) ++ collectAllFiles subsections

/-- From `index-generator.ts`: `collectAllFiles`: depth-first collection, a
section's files before its subsections. -/
def collectAllFiles : List DocSection → List String
  | [] => []
  | s :: rest => collectSectionFiles s ++ collectAllFiles rest

end

end DocsAgentsMd

namespace DocsAgentsMd

/-- Index of the last occurrence of character `c` in `l`
(JavaScript `String.lastIndexOf` for a single character). -/
def lastIdxOf (c : Char) (l : List Char) : Option Nat :=
  ((List.range l.length).filter (fun i => l[i]? = some c)).getLast?

/-- From `docs-detector.ts`: `EXCLUDED_DIRS`. -/
def EXCLUDED_DIRS : List String :=
  [("node_modules"), (".github"), (".git"), ("examples"), ("example"),
   ("__tests__"), ("test"), ("tests"), ("__mocks__"), ("fixtures"),
   (".vitepress"), ("public"), ("images"), ("icons"), ("logo"), ("snippets")]

/-- From `docs-detector.ts`: `DOC_EXTENSIONS`. -/
def DOC_EXTENSIONS : List String := [(".md"), (".mdx")]

/-- Model of `path.posix.extname`: the extension of the path's base name, empty for
dotfiles and names without a dot. -/
def posixExtname (p : String) : String :=
  let base := ((splitPath p).getLastD p).toList
  match lastIdxOf ('.') base with
  | none => ""
  | some 0 => ""
  | some i => String.mk (base.drop i)

/-- Model of `path.posix.dirname`: everything before the last `/`, or `.` when the
path has no directory part. -/
def posixDirname (p : String) : String :=
  match lastIdxOf ('/') p.toList with
  | none => "."
  | some i => String.mk (p.toList.take i)

/-- Insertion-ordered counter bump (JavaScript
`map.set(k, (map.get(k) || 0) + v)`). -/
def addVal (m : List (String × Nat)) (k : String) (v : Nat) : List (String × Nat) :=
  match m with
  | [] => [(k, v)]
  | (k', v') :: t => if k' = k then (k', v' + v) :: t else (k', v') :: addVal t k v

/-- From `docs-detector.ts`, the first loop of `detectDocsPath`: count qualifying documentation files per
directory (extension filter, root-level skip, excluded-segment skip). -/
def dirCounts (paths : List String) : List (String × Nat) :=
  paths.foldl
    (fun m filePath =>
      let ext := toLowerStr (posixExtname filePath)
      if ¬ DOC_EXTENSIONS.contains ext then m
      else
        let dir := posixDirname filePath
        if dir = ("." : String) then m
        else if (splitPath dir).any (fun p => EXCLUDED_DIRS.contains p) then m
        else addVal m dir 1)
    []

/-- The ancestors `parts.slice(0, i).join("/")`, `1 ≤ i ≤ parts.length`, of
a directory, skipping an ancestor whose own leaf segment is excluded. -/
def eligibleAncestors (dir : String) : List String :=
  let parts := splitPath dir
  ((List.range parts.length).map (fun i => i + 1)).filterMap
    (fun i =>
      if EXCLUDED_DIRS.contains (parts.getD (i - 1) "") then none
      else some (String.intercalate ("/") (parts.take i)))

/-- One aggregation step: add one directory's count to each of its
eligible ancestors. -/
def aggStep (m : List (String × Nat)) (e : String × Nat) : List (String × Nat) :=
  (eligibleAncestors e.1).foldl (fun m2 a => addVal m2 a e.2) m

/-- From `docs-detector.ts`, the aggregation loop of `detectDocsPath`: roll every surviving directory's
count up into each of its eligible ancestors. -/
def aggregate (dc : List (String × Nat)) : List (String × Nat) :=
  dc.foldl aggStep []

/-- From `docs-detector.ts`: `DOCS_LIKE_NAMES`. -/
def DOCS_LIKE_NAMES : List String :=
  [("docs"), ("doc"), ("documentation"), ("content"), ("guide"),
   ("guides"), ("wiki"), ("reference"), ("manual"), ("pages")]

/-- Model of `dir.split('/').pop() || ''`. -/
def leafName (dir : String) : String := (splitPath dir).getLastD ""

/-- Comparator used by `candidates.sort`: name bonus descending,
then count descending, then depth ascending; `candLt a b` is
`comparator(a, b) < 0`. -/
def candLt (a b : String × Nat × Nat) : Bool :=
  let aBonus : Nat := if DOCS_LIKE_NAMES.contains (leafName a.1) then 1 else 0
  let bBonus : Nat := if DOCS_LIKE_NAMES.contains (leafName b.1) then 1 else 0
  if ¬ (aBonus = bBonus) then decide (bBonus < aBonus)
  else if ¬ (a.2.1 = b.2.1) then decide (b.2.1 < a.2.1)
  else decide (a.2.2 < b.2.2)

/-- From `docs-detector.ts`: `detectDocsPath`. -/
def detectDocsPath (paths : List String) : Option String :=
  let dc := dirCounts paths
  if dc.isEmpty then none
  else
    let candidates := ((aggregate dc).filter (fun p => 3 ≤ p.2)).map
      (fun p => (p.1, p.2, (splitPath p.1).length))
    if candidates.isEmpty then none
    else
      match stableSort candLt candidates with
      | [] => none
      | c :: _ => some c.1

end DocsAgentsMd

namespace DocsAgentsMd

/-- From `index-generator.ts`: `IndexMeta`. -/
structure IndexMeta where
  name : String
  docsPath : String
  version : Option String := none
  outputFile : Option String := none
  libKey : Option String := none
  repo : Option String := none
  repoDocsPath : Option String := none

/-- The per-file escaping applied inside `generateIndex`:
`|`, `,`, `\x7b`, `\x7d` become `%7C`, `%2C`, `%7B`, `%7D`, in that order. -/
def escapeFileName (f : String) : String :=
  String.mk
    (replaceAllChar ('\x7d') (("%7D").toList)
      (replaceAllChar ('\x7b') (("%7B").toList)
        (replaceAllChar (',') (("%2C").toList)
          (replaceAllChar ('|') (("%7C").toList) f.toList))))

/-- Append `fileName` to directory `dir`'s group, preserving
first-encounter order (JavaScript `Map` with array push). -/
def pushGroup (dir fileName : String) :
    List (String × List String) → List (String × List String)
  | [] => [(dir, [fileName])]
  | (k, fs) :: t =>
    if k = dir then (k, fs ++ [fileName]) :: t else (k, fs) :: pushGroup dir fileName t

/-- From `index-generator.ts`: `groupByDirectory`: group full relative paths by
directory, in first-encounter order, keeping only base names. -/
def groupByDirectory (files : List String) : List (String × List String) :=
  files.foldl
    (fun m filePath =>
      let cs := filePath.toList
      let dir := match lastIdxOf ('/') cs with
        | none => ("." : String)
        | some i => String.mk (cs.take i)
      let fileName := match lastIdxOf ('/') cs with
        | none => filePath
        | some i => String.mk (cs.drop (i + 1))
      pushGroup dir fileName m)
    []

/-- From `constants.ts`: `DEFAULT_OUTPUT`. -/
def DEFAULT_OUTPUT : String := "AGENTS.md"

/-- From `index-generator.ts`: `generateIndex`. -/
def generateIndex (sections : List DocSection) (meta : IndexMeta) : String :=
  let versionSuffix := match meta.version with
    | some v => (" v") ++ v
    | none => ""
  let header := ("[") ++ meta.name ++ (" Docs Index") ++ versionSuffix ++ ("]")
  let rootPart := ("root: ") ++ meta.docsPath
  let important :=
    ("IMPORTANT: Prefer retrieval-led reasoning over pre-training-led reasoning for any ")
      ++ meta.name ++ (" tasks.")
  let target := match meta.outputFile with
    | some o => o
    | none => DEFAULT_OUTPUT
  let regenBase := ("npx docs-agents-md")
  let regenMid := match meta.libKey with
    | some k => regenBase ++ (" --lib ") ++ k
    | none =>
      match meta.repo with
      | some r =>
        regenBase ++ (" --repo ") ++ r ++ (" --name ") ++ toLowerStr meta.name
          ++ (match meta.repoDocsPath with
            | some dp => (" --docs-path ") ++ dp
            | none => "")
      | none => regenBase
  let regen := ("If docs missing, run: ") ++ regenMid ++ (" --output ") ++ target
  let groups := (groupByDirectory (collectAllFiles sections)).map
    (fun g =>
      g.1 ++ (":\x7b") ++ String.intercalate (",") (g.2.map escapeFileName) ++ ("\x7d"))
  String.intercalate ("|") ([header, rootPart, important, regen] ++ groups)

end DocsAgentsMd

namespace DocsAgentsMd

theorem injectIndex_of_not_has (d p n : List Char)
    (h : hasExistingIndex d n = false) :
    injectIndex d p n =
      if d = [] then (startMarker n ++ p ++ endMarker n) ++ [('\n')]
      else d ++ (if d.getLast? = some '\n' then [('\n')] else [('\n'), ('\n')])
        ++ (startMarker n ++ p ++ endMarker n) ++ [('\n')] := by
  rw [injectIndex.eq_def]
  simp [h]

theorem injectIndex_replace (d p n : List Char) (i e : Nat)
    (hi : firstOcc (startMarker n) d = some i)
    (he : firstOcc (endMarker n) d = some e)
    (hlt : i < e + (endMarker n).length) :
    injectIndex d p n =
      d.take i ++ (startMarker n ++ p ++ endMarker n)
        ++ d.drop (e + (endMarker n).length) := by
  have hhas : hasExistingIndex d n = true := by
    rw [hasExistingIndex, containsSub, hi]
    rfl
  rw [injectIndex.eq_def]
  simp only [hhas, reduceDIte, hi, Option.getD_some]
  split
  next heq => rw [he] at heq; cases heq
  next e2 heq =>
    rw [he] at heq
    injection heq with heq2
    subst heq2
    rw [if_neg (by omega)]

theorem injectIndex_strip_end_missing (d p n : List Char)
    (hhas : hasExistingIndex d n = true)
    (he : firstOcc (endMarker n) d = none) :
    injectIndex d p n = injectIndex (replaceFirst (startMarker n) [] d) p n := by
  rw [injectIndex.eq_def]
  simp only [hhas, reduceDIte]
  split
  next heq => rfl
  next e2 heq => rw [he] at heq; cases heq

theorem injectIndex_strip_reorder (d p n : List Char) (i e : Nat)
    (hi : firstOcc (startMarker n) d = some i)
    (he : firstOcc (endMarker n) d = some e)
    (hle : e + (endMarker n).length ≤ i) :
    injectIndex d p n =
      injectIndex (replaceFirst (endMarker n) [] (replaceFirst (startMarker n) [] d))
        p n := by
  have hhas : hasExistingIndex d n = true := by
    rw [hasExistingIndex, containsSub, hi]
    rfl
  rw [injectIndex.eq_def]
  simp only [hhas, reduceDIte, hi, Option.getD_some]
  split
  next heq => rw [he] at heq; cases heq
  next e2 heq =>
    rw [he] at heq
    injection heq with heq2
    subst heq2
    rw [if_pos (by omega)]

end DocsAgentsMd

namespace DocsAgentsMd

theorem occCount_append_of_no_early (pat a b : List Char)
    (h : ∀ q, q < a.length → ¬ pat <+: ((a ++ b).drop q)) :
    occCount pat (a ++ b) = occCount pat b := by
  induction a with
  | nil => simp
  | cons x a2 ih =>
    have h0 : ¬ pat.isPrefixOf (x :: (a2 ++ b)) = true := by
      intro hp
      exact h 0 (by simp) (by simpa [isPrefixOf_eq_true_iff] using hp)
    rw [List.cons_append, occCount, if_neg h0]
    simp only [Nat.zero_add]
    exact ih (fun q hq hp => h (q + 1) (by simp; omega) (by simpa using hp))

/-- If `a ++ x :: y` and `S ++ t` are the same list and `a` is shorter
than `S`, the element `x` lies inside `S`. -/
theorem mem_of_append_cons_eq (a y S t : List Char) (x : Char)
    (h : a ++ x :: y = S ++ t) (hlt : a.length < S.length) : x ∈ S := by
  have haS : a <+: S := by
    refine List.prefix_of_prefix_length_le ⟨x :: y, h⟩ (List.prefix_append S t) ?_
    omega
  rcases haS with ⟨S2, hS2⟩
  have hS2ne : S2 ≠ [] := by
    intro hc
    rw [hc, List.append_nil] at hS2
    subst hS2
    omega
  cases S2 with
  | nil => exact absurd rfl hS2ne
  | cons z S3 =>
    rw [← hS2, List.append_assoc] at h
    have h2 := List.append_cancel_left h
    rw [List.cons_append] at h2
    injection h2 with h3 _
    subst h3
    rw [← hS2]
    simp

/-- No occurrence of a string beginning with the start-marker text `S` can
begin strictly inside `c ++ sep` when `c` does not contain `S`, `sep` is a
nonempty run of newlines, and `S` is newline-free. -/
theorem no_early_marker_occurrence (S c sep b : List Char)
    (hS : ¬ S <:+: c) (hn : ('\n') ∉ S) (hSne : S ≠ [])
    (hsep : ∀ x ∈ sep, x = ('\n')) (hsepne : sep ≠ []) :
    ∀ q, q < (c ++ sep).length → ¬ S <+: (((c ++ sep) ++ b).drop q) := by
  intro q hq hpre
  rw [List.length_append] at hq
  rcases hpre with ⟨t, ht⟩
  have hS0 : 0 < S.length := List.length_pos.mpr hSne
  have hsep0 : 0 < sep.length := List.length_pos.mpr hsepne
  by_cases hcase : q + S.length ≤ c.length
  · apply hS
    have h1 : q ≤ c.length := by omega
    have hX : ((c ++ sep) ++ b).drop q = c.drop q ++ (sep ++ b) := by
      rw [List.append_assoc, List.drop_append_of_le_length h1]
    have hpre1 : S <+: ((c ++ sep) ++ b).drop q := ⟨t, ht⟩
    rw [hX] at hpre1
    have hpre2 : S <+: c.drop q := by
      refine List.prefix_of_prefix_length_le hpre1 (List.prefix_append _ _) ?_
      simp only [List.length_drop]
      omega
    rcases hpre2 with ⟨u, hu⟩
    exact ⟨c.take q, u, by rw [List.append_assoc, hu, List.take_append_drop]⟩
  · apply hn
    by_cases hq2 : q ≤ c.length
    · -- the matched region straddles into the newline separator
      have hX : ((c ++ sep) ++ b).drop q = c.drop q ++ (sep ++ b) := by
        rw [List.append_assoc, List.drop_append_of_le_length hq2]
      cases hsepc : sep with
      | nil => exact absurd hsepc hsepne
      | cons s0 sep2 =>
        have hs0 : s0 = ('\n') := hsep s0 (by rw [hsepc]; simp)
        have heq : c.drop q ++ s0 :: (sep2 ++ b) = S ++ t := by
          rw [← List.cons_append, ← hsepc, ← hX, ht]
        subst hs0
        exact mem_of_append_cons_eq (c.drop q) (sep2 ++ b) S t ('\n') heq
          (by simp only [List.length_drop]; omega)
    · -- the match begins inside the newline separator
      have hX : ((c ++ sep) ++ b).drop q = (c ++ sep).drop q ++ b := by
        rw [List.drop_append_of_le_length (by simp only [List.length_append]; omega)]
      have hX2 : (c ++ sep).drop q = sep.drop (q - c.length) := by
        rw [List.drop_append_eq_append_drop,
          List.drop_eq_nil_of_le (by omega), List.nil_append]
      cases hdropc : sep.drop (q - c.length) with
      | nil =>
        have := congrArg List.length hdropc
        simp only [List.length_drop, List.length_nil] at this
        omega
      | cons s0 rest =>
        have hs0 : s0 = ('\n') := hsep s0
          (List.drop_subset (q - c.length) sep (by rw [hdropc]; simp))
        have heq : ([] : List Char) ++ s0 :: (rest ++ b) = S ++ t := by
          rw [List.nil_append, ← List.cons_append, ← hdropc, ← hX2, ← hX, ht]
        subst hs0
        exact mem_of_append_cons_eq [] (rest ++ b) S t ('\n') heq (by simpa using hS0)

end DocsAgentsMd

namespace DocsAgentsMd

theorem hasExistingIndex_false_iff (content name : List Char) :
    hasExistingIndex content name = false ↔ ¬ startMarker name <:+: content := by
  rw [← hasExistingIndex_iff]
  cases h : hasExistingIndex content name <;> simp

/-- On the fresh-append path, occurrences of any pattern that begins with
the start marker are exactly the occurrences inside the appended
`wrapped ++ "\n"` tail. -/
theorem occCount_injectIndex_fresh (pat rest d p n : List Char)
    (hpat : pat = startMarker n ++ rest)
    (hno : hasExistingIndex d n = false)
    (hn : ('\n') ∉ startMarker n) :
    occCount pat (injectIndex d p n) =
      occCount pat ((startMarker n ++ p ++ endMarker n) ++ [('\n')]) := by
  have hS : ¬ startMarker n <:+: d := (hasExistingIndex_false_iff d n).mp hno
  have hSne : startMarker n ≠ [] := by
    have := startMarker_length_pos n
    intro hc
    rw [hc] at this
    simp at this
  rw [injectIndex_of_not_has d p n hno]
  by_cases hd : d = []
  · rw [if_pos hd]
  · rw [if_neg hd]
    have hd0 : d ≠ [] := hd
    set sep : List Char :=
      if d.getLast? = some ('\n') then [('\n')] else [('\n'), ('\n')] with hsepdef
    have hsep1 : ∀ x ∈ sep, x = ('\n') := by
      rw [hsepdef]
      split <;> simp
    have hsep2 : sep ≠ [] := by
      rw [hsepdef]
      split <;> simp
    have hshape :
        d ++ sep ++ (startMarker n ++ p ++ endMarker n) ++ [('\n')] =
          (d ++ sep) ++ ((startMarker n ++ p ++ endMarker n) ++ [('\n')]) := by
      simp [List.append_assoc]
    rw [hshape]
    apply occCount_append_of_no_early
    intro q hqlt hp
    have hSp : startMarker n <+: ((d ++ sep) ++
        ((startMarker n ++ p ++ endMarker n) ++ [('\n')])).drop q := by
      apply List.IsPrefix.trans _ hp
      rw [hpat]
      exact List.prefix_append _ _
    exact no_early_marker_occurrence (startMarker n) d sep _ hS hn hSne hsep1 hsep2 q
      (by simpa using hqlt) hSp

/-- Any string containing the wrapped block contains the start marker. -/
theorem startMarker_infix_of_wrapped (n p a b : List Char) :
    startMarker n <:+:
      a ++ (startMarker n ++ p ++ endMarker n) ++ b := by
  refine ⟨a, p ++ endMarker n ++ b, ?_⟩
  simp [List.append_assoc]

/-- Every branch of `injectIndex` leaves the start marker present in the
result. -/
theorem injectIndex_contains_startMarker (p n d : List Char) :
    startMarker n <:+: injectIndex d p n := by
  generalize hN : d.length = N
  induction N using Nat.strong_induction_on generalizing d with
  | _ N ih =>
    by_cases hhas : hasExistingIndex d n = true
    · rcases he : firstOcc (endMarker n) d with _ | e
      · rw [injectIndex_strip_end_missing d p n hhas he]
        have hlt : (replaceFirst (startMarker n) [] d).length < N := by
          rw [← hN]
          exact length_strip_lt _ _ (startMarker_length_pos n)
            ((hasExistingIndex_iff _ _).mp hhas)
        exact ih _ hlt _ rfl
      · rcases hi : firstOcc (startMarker n) d with _ | i
        · exfalso
          rw [hasExistingIndex, containsSub, hi] at hhas
          simp at hhas
        · by_cases hord : e + (endMarker n).length ≤ i
          · rw [injectIndex_strip_reorder d p n i e hi he hord]
            have hlt : (replaceFirst (endMarker n) []
                (replaceFirst (startMarker n) [] d)).length < N := by
              rw [← hN]
              calc (replaceFirst (endMarker n) []
                  (replaceFirst (startMarker n) [] d)).length
                  ≤ (replaceFirst (startMarker n) [] d).length :=
                    length_replaceFirst_le _ _ _ rfl
                _ < d.length :=
                    length_strip_lt _ _ (startMarker_length_pos n)
                      ((hasExistingIndex_iff _ _).mp hhas)
            exact ih _ hlt _ rfl
          · rw [injectIndex_replace d p n i e hi he (by omega)]
            exact startMarker_infix_of_wrapped n p _ _
    · rw [injectIndex_of_not_has d p n (by simpa using hhas)]
      split
      · exact ⟨[], p ++ endMarker n ++ [('\n')], by simp [List.append_assoc]⟩
      · refine ⟨d ++ (if d.getLast? = some ('\n') then [('\n')] else [('\n'), ('\n')]),
          p ++ endMarker n ++ [('\n')], ?_⟩
        simp [List.append_assoc]

end DocsAgentsMd

namespace DocsAgentsMd

/-- Claim C10: for every document, payload, and namespace key,
`hasExistingIndex` holds of the result of `injectIndex` — every branch of
injection (fresh append, in-place replacement, or corrupted-state repair)
inserts the wrapped payload, so the start marker for that key is always
present in the result. -/
theorem c10_inject_always_has_marker (d p n : List Char) :
    hasExistingIndex (injectIndex d p n) n = true :=
  (hasExistingIndex_iff _ _).mpr (injectIndex_contains_startMarker p n d)

/-- Claim C2, counterexample: a document holding two copies of the wrapped
block for key `k` keeps both after injection, so the result does not
contain exactly one occurrence of `startMarker(key) + payload +
endMarker(key)`. -/
theorem c2_two_blocks_counterexample :
    occCount
      (startMarker (("k").toList) ++ [('X')] ++ endMarker (("k").toList))
      (injectIndex
        ((startMarker (("k").toList) ++ [('X')] ++ endMarker (("k").toList)) ++
          (startMarker (("k").toList) ++ [('X')] ++ endMarker (("k").toList)))
        [('X')] (("k").toList)) = 2 := by
  rw [injectIndex_replace _ _ _ 0 32 (by decide) (by decide) (by decide)]
  decide

/-- Claim C2 (amended): when no start marker for the key occurs in the
document, the key is newline-free, and the wrapped payload occurs exactly
once in `wrapped ++ "\n"` (the payload introduces no additional marker
occurrence), the injected document contains exactly one occurrence of
`startMarker(key) + payload + endMarker(key)`. -/
theorem c2_exactly_one_block_fresh (d p n : List Char)
    (hno : hasExistingIndex d n = false)
    (hnl : ('\n') ∉ startMarker n)
    (hw : occCount (startMarker n ++ p ++ endMarker n)
        ((startMarker n ++ p ++ endMarker n) ++ [('\n')]) = 1) :
    occCount (startMarker n ++ p ++ endMarker n) (injectIndex d p n) = 1 := by
  rw [occCount_injectIndex_fresh (startMarker n ++ p ++ endMarker n)
    (p ++ endMarker n) d p n (by simp [List.append_assoc]) hno hnl]
  exact hw

/-- Witness for claim C2's amended theorem at a concrete document. -/
theorem c2_witness :
    occCount
      (startMarker (("k").toList) ++ (("idx").toList) ++ endMarker (("k").toList))
      (injectIndex (("# Project\n").toList) (("idx").toList) (("k").toList)) = 1 :=
  c2_exactly_one_block_fresh (("# Project\n").toList) (("idx").toList) (("k").toList)
    (by decide) (by decide) (by decide)

end DocsAgentsMd

namespace DocsAgentsMd

/-- Claim C5, counterexample: with the adversarial key
`-START -->\n\n<!-- DOCS-AGENTS-MD:` the start marker is self-overlapping
across a blank line, so repairing a start-only document leaves a document
in which the start marker occurs twice (the stripped orphan's leftover text
re-forms a marker with the appended block), not once. -/
theorem c5_orphan_reappears_counterexample :
    containsSub
        (("<!-- DOCS-AGENTS-MD:-START -->").toList ++
          startMarker (("-START -->\n\n<!-- DOCS-AGENTS-MD:").toList))
        (startMarker (("-START -->\n\n<!-- DOCS-AGENTS-MD:").toList)) = true ∧
    containsSub
        (("<!-- DOCS-AGENTS-MD:-START -->").toList ++
          startMarker (("-START -->\n\n<!-- DOCS-AGENTS-MD:").toList))
        (endMarker (("-START -->\n\n<!-- DOCS-AGENTS-MD:").toList)) = false ∧
    occCount (startMarker (("-START -->\n\n<!-- DOCS-AGENTS-MD:").toList))
      (injectIndex
        (("<!-- DOCS-AGENTS-MD:-START -->").toList ++
          startMarker (("-START -->\n\n<!-- DOCS-AGENTS-MD:").toList))
        [('X')] (("-START -->\n\n<!-- DOCS-AGENTS-MD:").toList)) = 2 := by
  refine ⟨by decide, by decide, ?_⟩
  rw [injectIndex_strip_end_missing _ _ _ (by decide) (by decide)]
  rw [injectIndex_of_not_has _ _ _ (by decide)]
  decide

/-- Claim C5 (amended): for a document with a start marker for the key and
no end marker, when the key is newline-free, stripping the orphaned start
marker leaves neither marker behind, and the payload re-introduces no start
marker occurrence, injection strips the orphan and appends a fresh block:
the result holds exactly one occurrence of the wrapped payload and exactly
one occurrence of the start marker (the block's own). -/
theorem c5_repair_single_block (d p n : List Char)
    (h1 : hasExistingIndex d n = true)
    (h2 : firstOcc (endMarker n) d = none)
    (h3 : hasExistingIndex (replaceFirst (startMarker n) [] d) n = false)
    (h4 : ('\n') ∉ startMarker n)
    (h5 : occCount (startMarker n ++ p ++ endMarker n)
        ((startMarker n ++ p ++ endMarker n) ++ [('\n')]) = 1)
    (h6 : occCount (startMarker n)
        ((startMarker n ++ p ++ endMarker n) ++ [('\n')]) = 1) :
    occCount (startMarker n ++ p ++ endMarker n) (injectIndex d p n) = 1 ∧
    occCount (startMarker n) (injectIndex d p n) = 1 := by
  rw [injectIndex_strip_end_missing d p n h1 h2]
  constructor
  · rw [occCount_injectIndex_fresh (startMarker n ++ p ++ endMarker n)
      (p ++ endMarker n) _ p n (by simp [List.append_assoc]) h3 h4]
    exact h5
  · rw [occCount_injectIndex_fresh (startMarker n) [] _ p n (by simp) h3 h4]
    exact h6

/-- Witness for claim C5's amended theorem: the repository's own
start-only test document for key `lib`. -/
theorem c5_witness :
    occCount
      (startMarker (("lib").toList) ++ [('X')] ++ endMarker (("lib").toList))
      (injectIndex
        ((("Some text\n").toList ++ startMarker (("lib").toList) ++
          ("old content").toList)) [('X')] (("lib").toList)) = 1 ∧
    occCount (startMarker (("lib").toList))
      (injectIndex
        ((("Some text\n").toList ++ startMarker (("lib").toList) ++
          ("old content").toList)) [('X')] (("lib").toList)) = 1 :=
  c5_repair_single_block
    ((("Some text\n").toList ++ startMarker (("lib").toList) ++
      ("old content").toList)) [('X')] (("lib").toList)
    (by decide) (by decide) (by decide) (by decide) (by decide) (by decide)

end DocsAgentsMd

namespace DocsAgentsMd

/-- Claim C1, counterexample: with payload equal to the end marker itself,
injecting twice into the empty document differs from injecting once, so
`injectIndex` is not idempotent for all documents, payloads, and keys. -/
theorem c1_not_idempotent_counterexample :
    (injectIndex (injectIndex [] (endMarker (("k").toList)) (("k").toList))
        (endMarker (("k").toList)) (("k").toList) ==
      injectIndex [] (endMarker (("k").toList)) (("k").toList)) = false := by
  rw [injectIndex_of_not_has [] (endMarker (("k").toList)) (("k").toList) (by decide)]
  rw [injectIndex_replace _ _ _ 0 31 (by decide) (by decide) (by decide)]
  decide

/-- Claim C1 (amended): whenever the first injection produces a document in
which the first start-marker occurrence is at position `i`, the first
end-marker occurrence is at the canonical position `i + |start| +
|payload|`, and the wrapped payload sits at position `i`, a second
injection with the same payload and key is the identity — injection is
idempotent whenever the markers of the injected result occur first at
their canonical positions. -/
theorem c1_idempotent_on_canonical (d p n : List Char) (i : Nat)
    (h1 : firstOcc (startMarker n) (injectIndex d p n) = some i)
    (h2 : firstOcc (endMarker n) (injectIndex d p n) =
        some (i + (startMarker n).length + p.length))
    (h3 : (startMarker n ++ p ++ endMarker n).isPrefixOf
        ((injectIndex d p n).drop i) = true) :
    injectIndex (injectIndex d p n) p n = injectIndex d p n := by
  set r := injectIndex d p n with hr
  rw [injectIndex_replace r p n i (i + (startMarker n).length + p.length) h1 h2
    (by have := endMarker_length_pos n; omega)]
  have h3p : (startMarker n ++ p ++ endMarker n) <+: r.drop i :=
    (isPrefixOf_eq_true_iff _ _).mp h3
  rcases h3p with ⟨t, ht⟩
  have hidx : i + (startMarker n).length + p.length + (endMarker n).length =
      i + (startMarker n ++ p ++ endMarker n).length := by
    simp only [List.length_append]
    omega
  rw [hidx, ← List.drop_drop, ← ht, List.drop_left]
  conv_rhs => rw [← List.take_append_drop i r, ← ht]
  simp [List.append_assoc]

/-- Witness for claim C1's amended theorem: injecting a plain payload into
the empty document and re-injecting. -/
theorem c1_witness :
    injectIndex (injectIndex [] (("payload").toList) (("k").toList))
        (("payload").toList) (("k").toList) =
      injectIndex [] (("payload").toList) (("k").toList) := by
  have h0 : injectIndex [] (("payload").toList) (("k").toList) =
      (startMarker (("k").toList) ++ (("payload").toList) ++
        endMarker (("k").toList)) ++ [('\n')] := by
    rw [injectIndex_of_not_has _ _ _ (by decide)]
    decide
  exact c1_idempotent_on_canonical [] (("payload").toList) (("k").toList) 0
    (by rw [h0]; decide) (by rw [h0]; decide) (by rw [h0]; decide)

end DocsAgentsMd

namespace DocsAgentsMd

/-- Claim C9, counterexample: a block for key `b` nested inside the block
for key `a` is destroyed when injecting for key `a`, so injection does not
leave every other namespace's block byte-identical in the output. -/
theorem c9_nested_block_counterexample :
    containsSub
        (startMarker (("a").toList) ++
          (startMarker (("b").toList) ++ endMarker (("b").toList)) ++
          endMarker (("a").toList))
        (startMarker (("b").toList) ++ endMarker (("b").toList)) = true ∧
    containsSub
      (injectIndex
        (startMarker (("a").toList) ++
          (startMarker (("b").toList) ++ endMarker (("b").toList)) ++
          endMarker (("a").toList))
        [('X')] (("a").toList))
      (startMarker (("b").toList) ++ endMarker (("b").toList)) = false := by
  refine ⟨by decide, ?_⟩
  rw [injectIndex_replace _ _ _ 0 91 (by decide) (by decide) (by decide)]
  decide

/-- Claim C9 (amended): injection for one key preserves, byte-identically,
any other namespace's block that lies in the unchanged part of the
document: the whole document on the fresh-append path, and the text before
the replaced region's start marker or after its end marker on the
replacement path. -/
theorem c9_frame_outside_replaced_region (d p n k2 body : List Char) :
    (hasExistingIndex d n = false →
      containsSub d (startMarker k2 ++ body ++ endMarker k2) = true →
      containsSub (injectIndex d p n)
        (startMarker k2 ++ body ++ endMarker k2) = true) ∧
    (∀ i e : Nat, firstOcc (startMarker n) d = some i →
      firstOcc (endMarker n) d = some e →
      i < e + (endMarker n).length →
      (containsSub (d.take i) (startMarker k2 ++ body ++ endMarker k2) = true ∨
        containsSub (d.drop (e + (endMarker n).length))
          (startMarker k2 ++ body ++ endMarker k2) = true) →
      containsSub (injectIndex d p n)
        (startMarker k2 ++ body ++ endMarker k2) = true) := by
  constructor
  · intro hno hin
    rw [containsSub_iff] at hin ⊢
    rw [injectIndex_of_not_has d p n hno]
    split
    · rename_i hd
      rw [hd] at hin
      have : (startMarker k2 ++ body ++ endMarker k2) = [] :=
        List.eq_nil_of_infix_nil hin
      rw [this]
      simp
    · refine hin.trans ⟨[], (if d.getLast? = some ('\n') then [('\n')]
        else [('\n'), ('\n')]) ++ (startMarker n ++ p ++ endMarker n) ++ [('\n')], ?_⟩
      simp [List.append_assoc]
  · intro i e hi he hlt hor
    rw [containsSub_iff]
    rw [injectIndex_replace d p n i e hi he hlt]
    rcases hor with hpre | hsuf
    · rw [containsSub_iff] at hpre
      refine hpre.trans ⟨[], (startMarker n ++ p ++ endMarker n) ++
        d.drop (e + (endMarker n).length), ?_⟩
      simp [List.append_assoc]
    · rw [containsSub_iff] at hsuf
      refine hsuf.trans ⟨d.take i ++ (startMarker n ++ p ++ endMarker n), [], ?_⟩
      simp [List.append_assoc]

/-- Witness for claim C9's amended theorem: both parts at concrete
documents — appending key `a` beside an existing `b` block, and replacing
an `a` block placed before a `b` block. -/
theorem c9_witness :
    containsSub
      (injectIndex
        (startMarker (("b").toList) ++ (("B").toList) ++ endMarker (("b").toList))
        [('X')] (("a").toList))
      (startMarker (("b").toList) ++ (("B").toList) ++ endMarker (("b").toList))
      = true ∧
    containsSub
      (injectIndex
        ((startMarker (("a").toList) ++ (("A").toList) ++ endMarker (("a").toList)) ++
          (startMarker (("b").toList) ++ (("B").toList) ++ endMarker (("b").toList)))
        [('X')] (("a").toList))
      (startMarker (("b").toList) ++ (("B").toList) ++ endMarker (("b").toList))
      = true :=
  ⟨(c9_frame_outside_replaced_region
      (startMarker (("b").toList) ++ (("B").toList) ++ endMarker (("b").toList))
      [('X')] (("a").toList) (("b").toList) (("B").toList)).1
      (by decide) (by decide),
   (c9_frame_outside_replaced_region
      ((startMarker (("a").toList) ++ (("A").toList) ++ endMarker (("a").toList)) ++
        (startMarker (("b").toList) ++ (("B").toList) ++ endMarker (("b").toList)))
      [('X')] (("a").toList) (("b").toList) (("B").toList)).2
      0 32 (by decide) (by decide) (by decide) (Or.inr (by decide))⟩

end DocsAgentsMd

namespace DocsAgentsMd

/-- Claim C8: `removeIndex` returns the document unchanged when no start
marker occurs; and on a well-formed block (markers first occurring at the
canonical decomposition positions) it deletes the block, additionally
deleting the two characters before the block's start when both are
newlines, and at most one immediately trailing newline. -/
theorem c8_remove_deletes_block (d n : List Char) :
    (hasExistingIndex d n = false → removeIndex d n = d) ∧
    (∀ pre mid suf : List Char,
      d = pre ++ startMarker n ++ mid ++ endMarker n ++ suf →
      firstOcc (startMarker n) d = some pre.length →
      firstOcc (endMarker n) d =
        some (pre.length + (startMarker n).length + mid.length) →
      removeIndex d n =
        (if 2 ≤ pre.length ∧ pre[pre.length - 1]? = some ('\n') ∧
            pre[pre.length - 2]? = some ('\n')
          then pre.take (pre.length - 2) else pre) ++
        (if suf.head? = some ('\n') then suf.tail else suf)) := by
  constructor
  · intro h
    rw [removeIndex, if_neg (by rw [h]; simp)]
  · intro pre mid suf hd hs he
    have hSpos := startMarker_length_pos n
    have hEpos := endMarker_length_pos n
    have hhas : hasExistingIndex d n = true := by
      rw [hasExistingIndex, containsSub, hs]
      rfl
    rw [removeIndex, if_pos hhas]
    rw [he, hs]
    simp only [Option.getD_some]
    rw [if_neg (by omega)]
    subst hd
    have hgl : ∀ i, i < pre.length →
        (pre ++ startMarker n ++ mid ++ endMarker n ++ suf)[i]? = pre[i]? := by
      intro i hi
      rw [List.getElem?_append, if_pos (by simp [List.length_append]; omega),
        List.getElem?_append, if_pos (by simp [List.length_append]; omega),
        List.getElem?_append, if_pos (by simp [List.length_append]; omega),
        List.getElem?_append, if_pos hi]
    have hlenA : (pre ++ startMarker n ++ mid ++ endMarker n).length =
        pre.length + (startMarker n).length + mid.length + (endMarker n).length := by
      simp [List.length_append]
      omega
    have hdrop0 : (pre ++ startMarker n ++ mid ++ endMarker n ++ suf).drop
        (pre.length + (startMarker n).length + mid.length + (endMarker n).length) =
          suf := by
      rw [← hlenA, List.drop_left]
    have hdrop1 : (pre ++ startMarker n ++ mid ++ endMarker n ++ suf).drop
        (pre.length + (startMarker n).length + mid.length + (endMarker n).length + 1) =
          suf.tail := by
      rw [← List.drop_drop, hdrop0, List.drop_one]
    have hg3 : (pre ++ startMarker n ++ mid ++ endMarker n ++ suf)[
        pre.length + (startMarker n).length + mid.length + (endMarker n).length]? =
          suf.head? := by
      rw [List.getElem?_append, if_neg (by rw [hlenA]; omega), hlenA]
      rw [show pre.length + (startMarker n).length + mid.length +
        (endMarker n).length -
          (pre.length + (startMarker n).length + mid.length +
            (endMarker n).length) = 0 from by omega]
      rw [← List.head?_eq_getElem?]
    have hcond1 : (2 ≤ pre.length ∧
        (pre ++ startMarker n ++ mid ++ endMarker n ++ suf)[pre.length - 1]? =
          some ('\n') ∧
        (pre ++ startMarker n ++ mid ++ endMarker n ++ suf)[pre.length - 2]? =
          some ('\n')) ↔
        (2 ≤ pre.length ∧ pre[pre.length - 1]? = some ('\n') ∧
          pre[pre.length - 2]? = some ('\n')) := by
      constructor
      · rintro ⟨h2, ha, hb⟩
        rw [hgl _ (by omega)] at ha
        rw [hgl _ (by omega)] at hb
        exact ⟨h2, ha, hb⟩
      · rintro ⟨h2, ha, hb⟩
        refine ⟨h2, ?_, ?_⟩
        · rw [hgl _ (by omega)]
          exact ha
        · rw [hgl _ (by omega)]
          exact hb
    have hlenfull : (pre ++ startMarker n ++ mid ++ endMarker n ++ suf).length =
        pre.length + (startMarker n).length + mid.length + (endMarker n).length +
          suf.length := by
      simp [List.length_append]
      omega
    have hcond2 : (pre.length + (startMarker n).length + mid.length +
          (endMarker n).length <
          (pre ++ startMarker n ++ mid ++ endMarker n ++ suf).length ∧
        (pre ++ startMarker n ++ mid ++ endMarker n ++ suf)[
          pre.length + (startMarker n).length + mid.length +
            (endMarker n).length]? = some ('\n')) ↔
        suf.head? = some ('\n') := by
      rw [hg3, hlenfull]
      constructor
      · rintro ⟨_, hh⟩
        exact hh
      · intro hh
        refine ⟨?_, hh⟩
        cases suf with
        | nil => simp at hh
        | cons x t => simp
    have htake : ∀ k, k ≤ pre.length →
        (pre ++ startMarker n ++ mid ++ endMarker n ++ suf).take k = pre.take k := by
      intro k hk
      rw [List.take_append_of_le_length (by rw [hlenA]; omega),
        List.take_append_of_le_length (by simp [List.length_append]; omega),
        List.take_append_of_le_length (by simp [List.length_append]; omega),
        List.take_append_of_le_length hk]
    rw [if_congr hcond1 rfl rfl, if_congr hcond2 rfl rfl]
    by_cases hc1 : 2 ≤ pre.length ∧ pre[pre.length - 1]? = some ('\n') ∧
        pre[pre.length - 2]? = some ('\n')
    · by_cases hc2 : suf.head? = some ('\n')
      · rw [if_pos hc1, if_pos hc2, htake (pre.length - 2) (by omega), hdrop1,
          if_pos hc1, if_pos hc2]
      · rw [if_pos hc1, if_neg hc2, htake (pre.length - 2) (by omega), hdrop0,
          if_pos hc1, if_neg hc2]
    · by_cases hc2 : suf.head? = some ('\n')
      · rw [if_neg hc1, if_pos hc2, htake pre.length (le_refl pre.length),
          List.take_length, hdrop1, if_neg hc1, if_pos hc2]
      · rw [if_neg hc1, if_neg hc2, htake pre.length (le_refl pre.length),
          List.take_length, hdrop0, if_neg hc1, if_neg hc2]

end DocsAgentsMd

namespace DocsAgentsMd

/-- Witness for claim C8: both parts at concrete documents — a document
with no marker is returned unchanged, and the repository's own
single-preceding-newline document keeps the content's trailing newline. -/
theorem c8_witness :
    removeIndex (("# No markers here").toList) (("react").toList) =
      (("# No markers here").toList) ∧
    removeIndex ((("abc\n").toList ++ startMarker (("lib").toList) ++
        ("stuff").toList ++ endMarker (("lib").toList) ++ [('\n')]))
      (("lib").toList) = ("abc\n").toList := by
  constructor
  · exact (c8_remove_deletes_block (("# No markers here").toList)
      (("react").toList)).1 (by decide)
  · have h := (c8_remove_deletes_block
      ((("abc\n").toList ++ startMarker (("lib").toList) ++ ("stuff").toList ++
        endMarker (("lib").toList) ++ [('\n')])) (("lib").toList)).2
      (("abc\n").toList) (("stuff").toList) [('\n')] rfl (by decide) (by decide)
    rw [h]
    decide

/-- Claim C3 (code bug): the round trip fails for a path nested three
directories deep — `restoreFullPaths` prepends `parentDir/section.name` to
subsection files that already carry their section prefix, so
`a/b/c/d.md` comes back as `a/b/b/c/d.md`, not the original path. -/
theorem c3_roundtrip_failure :
    collectAllFiles (buildDocTree [⟨("a/b/c/d.md")⟩]) = [("a/b/b/c/d.md")] ∧
    (collectAllFiles (buildDocTree [⟨("a/b/c/d.md")⟩]) == [("a/b/c/d.md")]) =
      false := by
  exact ⟨by rfl, by rfl⟩

/-- Claim C7: if every candidate directory's cumulative count is below the
constant threshold 3, detection returns none. -/
theorem c7_below_threshold_none (paths : List String)
    (h : ∀ e ∈ aggregate (dirCounts paths), e.2 < 3) :
    detectDocsPath paths = none := by
  have hfil : (aggregate (dirCounts paths)).filter (fun p => 3 ≤ p.2) = [] := by
    rw [List.filter_eq_nil_iff]
    intro a ha
    have := h a ha
    simp
    omega
  by_cases hdc : (dirCounts paths).isEmpty
  · simp [detectDocsPath, hdc]
  · simp [detectDocsPath, hdc, hfil, stableSort]

/-- Witness for claim C7: the spec's own two-file example. -/
theorem c7_witness :
    detectDocsPath [("docs/readme.md"), ("docs/contributing.md")] = none :=
  c7_below_threshold_none [("docs/readme.md"), ("docs/contributing.md")]
    (by decide)

end DocsAgentsMd

namespace DocsAgentsMd

theorem mem_replaceAllChar (c : Char) (repl s : List Char) (x : Char)
    (h : x ∈ replaceAllChar c repl s) : x ∈ s ∨ x ∈ repl := by
  induction s with
  | nil => simp [replaceAllChar] at h
  | cons y t ih =>
    rw [replaceAllChar] at h
    rcases List.mem_append.mp h with h1 | h2
    · by_cases hy : y = c
      · rw [if_pos hy] at h1
        exact Or.inr h1
      · rw [if_neg hy] at h1
        simp at h1
        subst h1
        exact Or.inl (by simp)
    · rcases ih h2 with h3 | h3
      · exact Or.inl (List.mem_cons_of_mem y h3)
      · exact Or.inr h3

theorem not_mem_replaceAllChar_self (c : Char) (repl s : List Char)
    (h : c ∉ repl) : c ∉ replaceAllChar c repl s := by
  induction s with
  | nil => simp [replaceAllChar]
  | cons y t ih =>
    rw [replaceAllChar]
    intro hmem
    rcases List.mem_append.mp hmem with h1 | h2
    · by_cases hy : y = c
      · rw [if_pos hy] at h1
        exact h h1
      · rw [if_neg hy] at h1
        simp at h1
        exact hy h1.symm
    · exact ih h2

theorem not_mem_escapeFileName (f : String) (x : Char)
    (hx : x = ('|') ∨ x = (',') ∨ x = ('\x7b') ∨ x = ('\x7d')) :
    x ∉ (escapeFileName f).toList := by
  rw [escapeFileName]
  intro hmem
  rw [show (String.mk
      (replaceAllChar ('\x7d') (("%7D").toList)
        (replaceAllChar ('\x7b') (("%7B").toList)
          (replaceAllChar (',') (("%2C").toList)
            (replaceAllChar ('|') (("%7C").toList) f.toList))))).toList =
      replaceAllChar ('\x7d') (("%7D").toList)
        (replaceAllChar ('\x7b') (("%7B").toList)
          (replaceAllChar (',') (("%2C").toList)
            (replaceAllChar ('|') (("%7C").toList) f.toList))) from rfl] at hmem
  rcases hx with h | h | h | h <;> subst h
  · rcases mem_replaceAllChar _ _ _ _ hmem with h4 | h4
    · rcases mem_replaceAllChar _ _ _ _ h4 with h3 | h3
      · rcases mem_replaceAllChar _ _ _ _ h3 with h2 | h2
        · exact not_mem_replaceAllChar_self _ _ _ (by decide) h2
        · exact absurd h2 (by decide)
      · exact absurd h3 (by decide)
    · exact absurd h4 (by decide)
  · rcases mem_replaceAllChar _ _ _ _ hmem with h4 | h4
    · rcases mem_replaceAllChar _ _ _ _ h4 with h3 | h3
      · exact not_mem_replaceAllChar_self _ _ _ (by decide) h3
      · exact absurd h3 (by decide)
    · exact absurd h4 (by decide)
  · rcases mem_replaceAllChar _ _ _ _ hmem with h4 | h4
    · exact not_mem_replaceAllChar_self _ _ _ (by decide) h4
    · exact absurd h4 (by decide)
  · exact not_mem_replaceAllChar_self _ _ _ (by decide) hmem

/-- Claim C4, counterexample: a directory name coming from an indexed
file's path keeps its raw comma (and the raw braces are structural), so
the encoder's output does contain an unescaped structural delimiter
contributed by indexed content: the group `c,d:{x.md}` appears verbatim. -/
theorem c4_raw_directory_delimiter_counterexample :
    containsSub
      (generateIndex [⟨("c,d"), [⟨("c,d/x.md")⟩], []⟩]
        { name := ("N"), docsPath := ("docs") }).toList
      (("c,d:\x7bx.md\x7d").toList) = true := by
  rfl

/-- Claim C4 (amended): every escaped file base name is free of the four
structural delimiters, and the concrete file `a,b.md` is emitted as
`a%2Cb.md` and never raw; directory labels and metadata, however, are
emitted unescaped. -/
theorem c4_escaped_basenames (f : String) :
    ((escapeFileName f).toList.any
      (fun c => c = ('|') ∨ c = (',') ∨ c = ('\x7b') ∨ c = ('\x7d'))) = false ∧
    containsSub
      (generateIndex [⟨("."), [⟨("a,b.md")⟩], []⟩]
        { name := ("N"), docsPath := ("docs") }).toList
      (("a%2Cb.md").toList) = true ∧
    containsSub
      (generateIndex [⟨("."), [⟨("a,b.md")⟩], []⟩]
        { name := ("N"), docsPath := ("docs") }).toList
      (("a,b.md").toList) = false := by
  refine ⟨?_, by rfl, by rfl⟩
  rw [List.any_eq_false]
  intro x hx
  simp only [decide_eq_true_eq]
  intro hor
  exact not_mem_escapeFileName f x hor hx

end DocsAgentsMd

namespace DocsAgentsMd

/-- JavaScript `map.get(k) || 0` on the insertion-ordered counter list. -/
def lookupVal : List (String × Nat) → String → Nat
  | [], _ => 0
  | (k, v) :: t, k2 => if k = k2 then v else lookupVal t k2

theorem lookupVal_addVal_self (m : List (String × Nat)) (k : String) (v : Nat) :
    lookupVal (addVal m k v) k = lookupVal m k + v := by
  induction m with
  | nil => simp [addVal, lookupVal]
  | cons e t ih =>
    obtain ⟨k2, v2⟩ := e
    rw [addVal]
    by_cases hk : k2 = k
    · rw [if_pos hk, lookupVal, if_pos hk, lookupVal, if_pos hk]
    · rw [if_neg hk, lookupVal, if_neg hk, lookupVal, if_neg hk]
      exact ih

theorem lookupVal_addVal_other (m : List (String × Nat)) (k k2 : String) (v : Nat)
    (h : k ≠ k2) : lookupVal (addVal m k v) k2 = lookupVal m k2 := by
  induction m with
  | nil => simp [addVal, lookupVal, h]
  | cons e t ih =>
    obtain ⟨k3, v3⟩ := e
    rw [addVal]
    by_cases hk : k3 = k
    · rw [if_pos hk]
      subst hk
      rw [lookupVal, if_neg h, lookupVal, if_neg h]
    · rw [if_neg hk, lookupVal]
      by_cases hk2 : k3 = k2
      · rw [if_pos hk2, lookupVal, if_pos hk2]
      · rw [if_neg hk2, lookupVal, if_neg hk2]
        exact ih

theorem lookupVal_le_addVal (m : List (String × Nat)) (k k2 : String) (v : Nat) :
    lookupVal m k2 ≤ lookupVal (addVal m k v) k2 := by
  by_cases h : k = k2
  · subst h
    rw [lookupVal_addVal_self]
    omega
  · rw [lookupVal_addVal_other m k k2 v h]

theorem lookupVal_le_foldl_addVal (l : List String) (v : Nat) (k2 : String) :
    ∀ m, lookupVal m k2 ≤
      lookupVal (l.foldl (fun m2 a => addVal m2 a v) m) k2 := by
  induction l with
  | nil => intro m; simp
  | cons x t ih =>
    intro m
    rw [List.foldl_cons]
    exact (lookupVal_le_addVal m x k2 v).trans (ih (addVal m x v))

theorem lookupVal_foldl_addVal_hit (l : List String) (v : Nat) (a : String)
    (ha : a ∈ l) : ∀ m, lookupVal m a + v ≤
      lookupVal (l.foldl (fun m2 x => addVal m2 x v) m) a := by
  induction l with
  | nil => cases ha
  | cons x t ih =>
    intro m
    rw [List.foldl_cons]
    rcases List.mem_cons.mp ha with hx | hx
    · subst hx
      have h1 : lookupVal m a + v = lookupVal (addVal m a v) a :=
        (lookupVal_addVal_self m a v).symm
      rw [h1]
      exact lookupVal_le_foldl_addVal t v a (addVal m a v)
    · exact (Nat.add_le_add_right (lookupVal_le_addVal m x a v) v).trans
        (ih hx (addVal m x v))

theorem lookupVal_le_aggStep (m : List (String × Nat)) (e : String × Nat)
    (k2 : String) : lookupVal m k2 ≤ lookupVal (aggStep m e) k2 :=
  lookupVal_le_foldl_addVal (eligibleAncestors e.1) e.2 k2 m

theorem lookupVal_le_foldl_aggStep (dc : List (String × Nat)) (k2 : String) :
    ∀ m, lookupVal m k2 ≤ lookupVal (dc.foldl aggStep m) k2 := by
  induction dc with
  | nil => intro m; simp
  | cons e t ih =>
    intro m
    rw [List.foldl_cons]
    exact (lookupVal_le_aggStep m e k2).trans (ih (aggStep m e))

theorem aggregate_credits_ancestors (dc : List (String × Nat)) (d : String)
    (c : Nat) (hmem : (d, c) ∈ dc) (a : String) (ha : a ∈ eligibleAncestors d) :
    ∀ m, lookupVal m a + c ≤ lookupVal (dc.foldl aggStep m) a := by
  induction dc with
  | nil => cases hmem
  | cons e t ih =>
    intro m
    rw [List.foldl_cons]
    rcases List.mem_cons.mp hmem with he | he
    · subst he
      exact (lookupVal_foldl_addVal_hit (eligibleAncestors d) c a ha m).trans
        (lookupVal_le_foldl_aggStep t a (aggStep m (d, c)))
    · exact (Nat.add_le_add_right (lookupVal_le_aggStep m e a) c).trans
        (ih he (aggStep m e))

end DocsAgentsMd

namespace DocsAgentsMd

/-- Claim C6: the detector credits every surviving directory's raw file
count to each of its eligible ancestor directories, so a documentation
root is credited with all files in its subtree; on the spec's five-path
input it returns `content`, whose aggregated count is 5 while every
subdirectory holds at most 2. -/
theorem c6_detect_aggregates_ancestors :
    (∀ paths : List String, ∀ d : String, ∀ c : Nat,
      (d, c) ∈ dirCounts paths → ∀ a ∈ eligibleAncestors d,
      c ≤ lookupVal (aggregate (dirCounts paths)) a) ∧
    detectDocsPath
      [("content/getting-started/intro.md"), ("content/getting-started/install.md"),
        ("content/guide/routing.md"), ("content/guide/middleware.md"),
        ("content/api/reference.md")] = some ("content") ∧
    lookupVal (aggregate (dirCounts
      [("content/getting-started/intro.md"), ("content/getting-started/install.md"),
        ("content/guide/routing.md"), ("content/guide/middleware.md"),
        ("content/api/reference.md")])) ("content") = 5 ∧
    lookupVal (aggregate (dirCounts
      [("content/getting-started/intro.md"), ("content/getting-started/install.md"),
        ("content/guide/routing.md"), ("content/guide/middleware.md"),
        ("content/api/reference.md")])) ("content/getting-started") = 2 ∧
    lookupVal (aggregate (dirCounts
      [("content/getting-started/intro.md"), ("content/getting-started/install.md"),
        ("content/guide/routing.md"), ("content/guide/middleware.md"),
        ("content/api/reference.md")])) ("content/guide") = 2 ∧
    lookupVal (aggregate (dirCounts
      [("content/getting-started/intro.md"), ("content/getting-started/install.md"),
        ("content/guide/routing.md"), ("content/guide/middleware.md"),
        ("content/api/reference.md")])) ("content/api") = 1 := by
  refine ⟨?_, by rfl, by rfl, by rfl, by rfl, by rfl⟩
  intro paths d c hmem a ha
  have h := aggregate_credits_ancestors (dirCounts paths) d c hmem a ha []
  rw [aggregate]
  simpa [lookupVal] using h

/-- Witness for claim C6's universal conjunct: the entry
`content/api ↦ 1` is credited to its ancestor `content`. -/
theorem c6_witness :
    (1 : Nat) ≤ lookupVal (aggregate (dirCounts
      [("content/getting-started/intro.md"), ("content/getting-started/install.md"),
        ("content/guide/routing.md"), ("content/guide/middleware.md"),
        ("content/api/reference.md")])) ("content") :=
  c6_detect_aggregates_ancestors.1
    [("content/getting-started/intro.md"), ("content/getting-started/install.md"),
      ("content/guide/routing.md"), ("content/guide/middleware.md"),
      ("content/api/reference.md")]
    ("content/api") 1 (by decide) ("content") (by decide)

end DocsAgentsMd
